import Mathlib

/-!
Shallow embedding of the vocabulary-extraction scripts (`anki.py` and
`extractor.py`).  Strings are modelled as `List Char`; the filesystem is
modelled by passing file contents (or `Option` of contents, `none` meaning
the file is absent) explicitly.  Each definition is translated from the
corresponding Python function; line references point into the source files.
-/

/-- ASCII whitespace recognised by Python's `str.split()` / `str.strip()`
(space, tab, newline, carriage return, vertical tab, form feed). -/
def isPySpace (c : Char) : Bool :=
  c.toNat = 32 || (9 ≤ c.toNat && c.toNat ≤ 13)

/-- Membership in Python's `string.punctuation`
(the 32 ASCII characters `!` … `~` that are neither letters, digits,
whitespace nor control characters): code points 33-47, 58-64, 91-96, 123-126. -/
def isPunct (c : Char) : Bool :=
  (33 ≤ c.toNat && c.toNat ≤ 47) || (58 ≤ c.toNat && c.toNat ≤ 64) ||
  (91 ≤ c.toNat && c.toNat ≤ 96) || (123 ≤ c.toNat && c.toNat ≤ 126)

/-- ASCII decimal digit, the characters matched by the regex `\d`
(`re.compile(r'\d')` in `extractor.py` line 111) on ASCII text. -/
def isDigitA (c : Char) : Bool :=
  48 ≤ c.toNat && c.toNat ≤ 57

/-- ASCII lowercasing of a single character, as Python's `str.lower`
acts on ASCII text: `A`-`Z` (65-90) map 32 code points up, everything
else is unchanged. -/
def toLowerA (c : Char) : Char :=
  if 65 ≤ c.toNat && c.toNat ≤ 90 then Char.ofNat (c.toNat + 32) else c

/-- Python `str.lower` on a whole string (ASCII model). -/
def lowerStr (s : List Char) : List Char :=
  s.map toLowerA

/-- Lexicographic-by-code-point comparison of strings, the order used by
Python's `sorted` on `str` values.  `lexLe a b` holds when `a ≤ b`. -/
def lexLe : List Char → List Char → Bool
  | [], _ => true
  | _ :: _, [] => false
  | a :: as, b :: bs =>
    if a.toNat < b.toNat then true
    else if b.toNat < a.toNat then false
    else lexLe as bs

/-- Python `str.strip()`: remove leading and trailing whitespace. -/
def pyStrip (s : List Char) : List Char :=
  ((s.dropWhile isPySpace).reverse.dropWhile isPySpace).reverse

/-- Deletion of every `string.punctuation` character, the effect of
`text.translate(str.maketrans('', '', string.punctuation))`
(`extractor.py` lines 59-60). -/
def stripPunct (s : List Char) : List Char :=
  s.filter (fun c => !isPunct c)

/-- Python `str.replace(old, new)`: replace every (leftmost-first,
non-overlapping) occurrence of `old` by `new`.  The replaced text is not
rescanned.  (For empty `old` this model leaves the string unchanged;
the scripts only ever call it with non-empty `old`.) -/
def replaceStr (old nw : List Char) (s : List Char) : List Char :=
  match s with
  | [] => []
  | c :: rest =>
    if h : old.isPrefixOf (c :: rest) ∧ old ≠ [] then
      nw ++ replaceStr old nw ((c :: rest).drop old.length)
    else
      c :: replaceStr old nw rest
termination_by s.length
decreasing_by
  · simp only [List.length_drop, List.length_cons]
    have hlen : 1 ≤ old.length := by
      cases old with
      | nil => exact absurd rfl h.2
      | cons o tl => simp
    omega
  · simp

/-- Helper for the non-greedy bracket pattern `\[.*?\]` of `re.sub`
(`anki.py` line 61): starting just after a `[`, look for the nearest `]`
with no newline in between (`.` does not match a newline in Python's `re`);
return the remainder of the string after that `]`, or `none` when the
bracket has no match. -/
def findClose : List Char → Option (List Char)
  | [] => none
  | c :: rest =>
    if c = ']' then some rest
    else if c = '\n' then none
    else findClose rest

/-- `re.sub(r'\[.*?\]', '', s)`: delete every non-greedy bracket-delimited
substring, scanning left to right (`anki.py` line 61). -/
def removeBrackets (s : List Char) : List Char :=
  match s with
  | [] => []
  | c :: rest =>
    if c = '[' then
      match h : findClose rest with
      | some after => removeBrackets after
      | none => c :: removeBrackets rest
    else c :: removeBrackets rest
termination_by s.length
decreasing_by
  · have key : ∀ l r : List Char, findClose l = some r → r.length < l.length := by
      intro l
      induction l with
      | nil => intro r hr; simp [findClose] at hr
      | cons d tl ih =>
        intro r hr
        simp only [findClose] at hr
        by_cases hd : d = ']'
        · rw [if_pos hd] at hr
          cases hr
          simp
        · rw [if_neg hd] at hr
          by_cases hn : d = '\n'
          · rw [if_pos hn] at hr; cases hr
          · rw [if_neg hn] at hr
            have := ih r hr
            simp
            omega
    have := key rest after h
    simp
    omega
  · simp
  · simp

/-- Python `str.split()` with no separator argument: split on runs of
whitespace, discarding empty tokens. -/
def splitWs (s : List Char) : List (List Char) :=
  match s with
  | [] => []
  | c :: rest =>
    if h : isPySpace c then splitWs rest
    else (c :: rest).takeWhile (fun d => !isPySpace d) ::
      splitWs ((c :: rest).dropWhile (fun d => !isPySpace d))
termination_by s.length
decreasing_by
  · simp
  · have hsub : ((c :: rest).dropWhile (fun d => !isPySpace d)).length ≤ rest.length := by
      have hcons : (c :: rest).dropWhile (fun d => !isPySpace d) =
          rest.dropWhile (fun d => !isPySpace d) := by
        rw [List.dropWhile_cons]
        simp [h]
      rw [hcons]
      exact (List.dropWhile_sublist (fun d => !isPySpace d)).length_le
    simp
    omega

/-- Decompose a character stream into the newline-terminated lines it
contains (how a reader recovers the lines written to a text file);
a final fragment without a terminating newline is also a line. -/
def splitLines (s : List Char) : List (List Char) :=
  match s with
  | [] => []
  | c :: rest =>
    ((c :: rest).takeWhile (fun d => !(d == '\n'))) ::
      splitLines (((c :: rest).dropWhile (fun d => !(d == '\n'))).drop 1)
termination_by s.length
decreasing_by
  · have hsub : ((c :: rest).dropWhile (fun d => !(d == '\n'))).length ≤ (c :: rest).length :=
      (List.dropWhile_sublist (fun d => !(d == '\n'))).length_le
    simp only [List.length_drop, List.length_cons] at hsub ⊢
    omega

/-- Join a token list into a single string with one space between
consecutive tokens (the `normalize_join` of the specification's
idempotence property). -/
def joinSp : List (List Char) → List Char
  | [] => []
  | [w] => w
  | w :: ws => w ++ ' ' :: joinSp ws

/-- Python `sorted(list(set(l)))` for a list of strings: the distinct
elements in ascending lexicographic order. -/
def sortedDedup (l : List (List Char)) : List (List Char) :=
  List.insertionSort (fun a b => lexLe a b = true) l.dedup

namespace Anki

/-- The literal `'<br>'` (`anki.py` line 59). -/
def brTag : List Char := ['<', 'b', 'r', '>']

/-- The literal `'<div>'` (`anki.py` line 59). -/
def divTag : List Char := ['<', 'd', 'i', 'v', '>']

/-- The literal `'</div>'` (`anki.py` line 59). -/
def divCloseTag : List Char := ['<', '/', 'd', 'i', 'v', '>']

/-- `clean_field_text` (`anki.py` lines 54-62): substitute the markup
tokens `<br>`/`<div>` by a newline and drop `</div>`, strip surrounding
whitespace, then delete every non-greedy `[...]` group. -/
def clean_field_text (text : List Char) : List Char :=
  removeBrackets
    (pyStrip (replaceStr divCloseTag [] (replaceStr divTag ['\n'] (replaceStr brTag ['\n'] text))))

/-- The per-line loop of `compare` (`anki.py` lines 110-116): strip each
line, skip empty lines, and keep the stripped line when its lowercased
form is not in the known set. -/
def compareLines (anki_words : List (List Char)) (lines : List (List Char)) : List (List Char) :=
  lines.filterMap (fun line =>
    let w := pyStrip line
    if w = [] then none
    else if lowerStr w ∈ anki_words then none
    else some w)

/-- `compare` (`anki.py` lines 103-121).  The reference file `sub.txt` is
modelled by an `Option`: `none` when the file is missing (the
`FileNotFoundError` branch, which makes the function return `None`),
`some lines` when it is readable with the given lines. -/
def compare (anki_words : List (List Char)) (sub_file : Option (List (List Char))) :
    Option (List (List Char)) :=
  match sub_file with
  | none => none
  | some lines => some (compareLines anki_words lines)

/-- The list printed by `output_words` (`anki.py` line 128):
`sorted(list(set(words_not_in_anki)))`. -/
def output_words (words_not_in_anki : List (List Char)) : List (List Char) :=
  sortedDedup words_not_in_anki

/-- The diff pipeline of `anki.py`: the per-line comparison of `compare`
followed by the dedup-and-sort of `output_words`. -/
def diffOutput (anki_words : List (List Char)) (lines : List (List Char)) : List (List Char) :=
  output_words (compareLines anki_words lines)

/-- The vocabulary builder of `anki.py` (lines 82-88 and 144-153): clean
each raw front field with `clean_field_text`, split each cleaned text on
whitespace, lowercase every word, and collect the words into a set
(`set(word.lower() for word in all_words)`). -/
def buildVocab (front_texts : List (List Char)) : Finset (List Char) :=
  (((front_texts.map clean_field_text).flatMap splitWs).map lowerStr).toFinset

end Anki

namespace Extractor

/-- `extract_unique_words_from_text` (`extractor.py` lines 40-74):
for empty input return `[]`; otherwise lowercase, delete punctuation,
split on whitespace, deduplicate through a set and sort. -/
def extract_unique_words_from_text (text : List Char) : List (List Char) :=
  if text = [] then []
  else sortedDedup (splitWs (stripPunct (lowerStr text)))

/-- `clean_word_list` (`extractor.py` lines 98-122): keep the words of
length strictly greater than 4 that contain no decimal digit. -/
def clean_word_list (words : List (List Char)) : List (List Char) :=
  words.filter (fun word => decide (4 < word.length) && !(word.any isDigitA))

/-- The byte stream that `save_words_to_file` (`extractor.py` lines 77-96)
writes on success: each word followed by a newline, in list order. -/
def save_words_to_file (word_list : List (List Char)) : List Char :=
  word_list.flatMap (fun word => word ++ ['\n'])

/-- One run of `save_words_to_file` against a destination file.
`old_content` is the destination's previous content (mode `'w'` truncates,
so it never influences the result); `io_ok` tells whether the underlying
file operations succeed.  Returns the boolean result of the Python
function together with the file content afterwards (`none` when the write
failed and nothing is guaranteed about the destination). -/
def save_words_run (word_list : List (List Char)) (old_content : List Char) (io_ok : Bool) :
    Bool × Option (List Char) :=
  if io_ok then (true, some (save_words_to_file word_list)) else (false, none)

/-- Outcome of one run of the `__main__` block of `extractor.py`. -/
inductive RunOutcome where
  | finished : RunOutcome
  | reported : List Char → RunOutcome
  | raised : List Char → RunOutcome
deriving DecidableEq

/-- The `__main__` pipeline of `extractor.py` (lines 136-160), given the
text extracted from the VTT file (`none` when extraction failed and was
reported).  When at least one unique word is extracted, line 152
evaluates the f-string `f"Found {len(clea_unique_words)} unique words."`
whose name `clea_unique_words` is undefined (the variable assigned on
line 151 is `clean_unique_words`), so a `NameError` escapes the script:
there is no surrounding `try`/`except`. -/
def extractor_main (vtt_text : Option (List Char)) : RunOutcome :=
  match vtt_text with
  | none => RunOutcome.reported ("Could not extract text from VTT file. Aborting.".data)
  | some text =>
    if extract_unique_words_from_text text = [] then
      RunOutcome.reported ("No unique words found in the extracted text.".data)
    else
      RunOutcome.raised ("NameError: name clea_unique_words is not defined".data)

end Extractor

/-- The specification's Text Normalizer (section 4.1), assembled from the
source stages: markup substitution and whitespace strip
(`clean_field_text`, `anki.py` lines 54-62), bracket-group removal
(same function), lowercasing, punctuation deletion and whitespace
splitting (`extract_unique_words_from_text`, `extractor.py` lines 54-63). -/
def normalizeText (raw : List Char) : List (List Char) :=
  splitWs (stripPunct (lowerStr (Anki.clean_field_text raw)))

/-- The specification's `normalize_join`: the tokens of `normalizeText`
joined back into one string with single spaces. -/
def normalizeJoin (raw : List Char) : List Char :=
  joinSp (normalizeText raw)

/-- Modelled from the spec: the parameterised Word Filter contract of
section 4.3 (`filter(words, min_length, reject_if_contains_digit)`),
stated in the spec's words for comparison with the hard-coded
`clean_word_list` of the source.  Retain a word iff its length is
strictly greater than `min_length` and (digit rejection is off or the
word contains no decimal digit). -/
def filterSpec (min_length : Nat) (reject_if_contains_digit : Bool)
    (words : List (List Char)) : List (List Char) :=
  words.filter (fun word =>
    decide (min_length < word.length) && (!reject_if_contains_digit || !(word.any isDigitA)))

/-! ### Character-level lemmas -/

theorem char_eq_of_toNat_eq {a b : Char} (h : a.toNat = b.toNat) : a = b := by
  have h2 := congrArg Char.ofNat h
  rwa [Char.ofNat_toNat, Char.ofNat_toNat] at h2

theorem toLowerA_not_upper (c : Char) :
    (65 ≤ (toLowerA c).toNat && (toLowerA c).toNat ≤ 90) = false := by
  by_cases h : (65 ≤ c.toNat && c.toNat ≤ 90) = true
  · have hb : 65 ≤ c.toNat ∧ c.toNat ≤ 90 := by simpa using h
    have key : ∀ n, 65 ≤ n → n ≤ 90 →
        (65 ≤ (toLowerA (Char.ofNat n)).toNat && (toLowerA (Char.ofNat n)).toNat ≤ 90) = false := by
      intro n h1 h2
      interval_cases n <;> decide
    have hc := key c.toNat hb.1 hb.2
    rwa [Char.ofNat_toNat] at hc
  · rw [toLowerA, if_neg h]
    simpa using h

theorem toLowerA_idem (c : Char) : toLowerA (toLowerA c) = toLowerA c := by
  rw [toLowerA]
  simp only [toLowerA_not_upper]
  simp

/-! ### Lexicographic order lemmas -/

theorem lexLe_cons_iff (x y : Char) (xs ys : List Char) :
    lexLe (x :: xs) (y :: ys) = true ↔
      x.toNat < y.toNat ∨ (x.toNat = y.toNat ∧ lexLe xs ys = true) := by
  simp only [lexLe]
  split_ifs with h1 h2
  · simp [h1]
  · simp only [Bool.false_eq_true, false_iff]
    rintro (h | ⟨h, -⟩) <;> omega
  · have hxy : x.toNat = y.toNat := by omega
    simp [hxy]

theorem lexLe_refl (a : List Char) : lexLe a a = true := by
  induction a with
  | nil => rfl
  | cons c t ih => simp [lexLe_cons_iff, ih]

theorem lexLe_total (a b : List Char) : lexLe a b = true ∨ lexLe b a = true := by
  induction a generalizing b with
  | nil => left; rfl
  | cons c t ih =>
    cases b with
    | nil => right; rfl
    | cons d u =>
      rcases Nat.lt_trichotomy c.toNat d.toNat with h | h | h
      · left; simp [lexLe_cons_iff, h]
      · rcases ih u with h2 | h2
        · left; simp [lexLe_cons_iff, h, h2]
        · right; simp [lexLe_cons_iff, h.symm, h2]
      · right; simp [lexLe_cons_iff, h]

theorem lexLe_trans {a b c : List Char} (h1 : lexLe a b = true) (h2 : lexLe b c = true) :
    lexLe a c = true := by
  induction a generalizing b c with
  | nil => rfl
  | cons x xs ih =>
    cases b with
    | nil => simp [lexLe] at h1
    | cons y ys =>
      cases c with
      | nil => simp [lexLe] at h2
      | cons z zs =>
        rw [lexLe_cons_iff] at h1 h2 ⊢
        rcases h1 with h1 | ⟨h1e, h1r⟩
        · rcases h2 with h2 | ⟨h2e, h2r⟩
          · left; omega
          · left; omega
        · rcases h2 with h2 | ⟨h2e, h2r⟩
          · left; omega
          · right; exact ⟨by omega, ih h1r h2r⟩

theorem lexLe_antisymm {a b : List Char} (h1 : lexLe a b = true) (h2 : lexLe b a = true) :
    a = b := by
  induction a generalizing b with
  | nil =>
    cases b with
    | nil => rfl
    | cons y ys => simp [lexLe] at h2
  | cons x xs ih =>
    cases b with
    | nil => simp [lexLe] at h1
    | cons y ys =>
      rw [lexLe_cons_iff] at h1 h2
      rcases h1 with h1 | ⟨h1e, h1r⟩
      · rcases h2 with h2 | ⟨h2e, h2r⟩ <;> omega
      · rcases h2 with h2 | ⟨h2e, h2r⟩
        · omega
        · have hc : x = y := char_eq_of_toNat_eq h1e
          rw [hc, ih h1r h2r]

/-! ### takeWhile / dropWhile over appends -/

theorem takeWhile_append_of_all {p : Char → Bool} {t : List Char} (rest : List Char)
    (h : ∀ c ∈ t, p c = true) : (t ++ rest).takeWhile p = t ++ rest.takeWhile p := by
  induction t with
  | nil => simp
  | cons c tl ih =>
    have hc : p c = true := h c (by simp)
    simp only [List.cons_append, List.takeWhile_cons, hc, if_true]
    rw [ih (fun d hd => h d (by simp [hd]))]

theorem dropWhile_append_of_all {p : Char → Bool} {t : List Char} (rest : List Char)
    (h : ∀ c ∈ t, p c = true) : (t ++ rest).dropWhile p = rest.dropWhile p := by
  induction t with
  | nil => simp
  | cons c tl ih =>
    have hc : p c = true := h c (by simp)
    simp only [List.cons_append, List.dropWhile_cons, hc, if_true]
    exact ih (fun d hd => h d (by simp [hd]))

theorem takeWhile_eq_nil_of_all_neg {p : Char → Bool} {t : List Char}
    (h : ∀ c ∈ t, p c = false) : t.takeWhile p = [] := by
  cases t with
  | nil => rfl
  | cons c tl => simp [List.takeWhile_cons, h c (by simp)]

theorem dropWhile_eq_self_of_all_neg {p : Char → Bool} {t : List Char}
    (h : ∀ c ∈ t, p c = false) : t.dropWhile p = t := by
  cases t with
  | nil => rfl
  | cons c tl => simp [List.dropWhile_cons, h c (by simp)]

theorem takeWhile_append_of_not_all {p : Char → Bool} {a : List Char} (b : List Char)
    (h : ¬ ∀ c ∈ a, p c = true) : (a ++ b).takeWhile p = a.takeWhile p := by
  induction a with
  | nil => exact absurd (by simp) h
  | cons c tl ih =>
    cases hc : p c with
    | false => simp [List.takeWhile_cons, hc]
    | true =>
      have htl : ¬ ∀ c ∈ tl, p c = true := by
        intro hall
        exact h (fun d hd => by
          rcases List.mem_cons.mp hd with rfl | hd2
          · exact hc
          · exact hall d hd2)
      simp only [List.cons_append, List.takeWhile_cons, hc, if_true]
      rw [ih htl]

theorem dropWhile_append_of_not_all {p : Char → Bool} {a : List Char} (b : List Char)
    (h : ¬ ∀ c ∈ a, p c = true) : (a ++ b).dropWhile p = a.dropWhile p ++ b := by
  induction a with
  | nil => exact absurd (by simp) h
  | cons c tl ih =>
    cases hc : p c with
    | false => simp [List.dropWhile_cons, hc]
    | true =>
      have htl : ¬ ∀ c ∈ tl, p c = true := by
        intro hall
        exact h (fun d hd => by
          rcases List.mem_cons.mp hd with rfl | hd2
          · exact hc
          · exact hall d hd2)
      simp only [List.cons_append, List.dropWhile_cons, hc, if_true]
      exact ih htl

/-! ### splitWs lemmas -/

theorem splitWs_nil : splitWs [] = [] := by
  simp [splitWs]

theorem splitWs_cons_space {c : Char} (rest : List Char) (h : isPySpace c = true) :
    splitWs (c :: rest) = splitWs rest := by
  rw [splitWs]
  simp [h]

theorem splitWs_cons_word {c : Char} (rest : List Char) (h : isPySpace c = false) :
    splitWs (c :: rest) = (c :: rest).takeWhile (fun d => !isPySpace d) ::
      splitWs ((c :: rest).dropWhile (fun d => !isPySpace d)) := by
  rw [splitWs]
  simp [h]

theorem splitWs_all_space {s : List Char} (h : ∀ c ∈ s, isPySpace c = true) :
    splitWs s = [] := by
  induction s with
  | nil => exact splitWs_nil
  | cons c rest ih =>
    rw [splitWs_cons_space rest (h c (by simp))]
    exact ih (fun d hd => h d (by simp [hd]))

theorem splitWs_sound (s : List Char) :
    ∀ w ∈ splitWs s, w ≠ [] ∧ ∀ c ∈ w, isPySpace c = false ∧ c ∈ s := by
  induction s using splitWs.induct with
  | case1 => simp [splitWs_nil]
  | case2 c rest h ih =>
    rw [splitWs_cons_space rest h]
    intro w hw
    rcases ih w hw with ⟨hne, hall⟩
    exact ⟨hne, fun d hd => ⟨(hall d hd).1, by simp [(hall d hd).2]⟩⟩
  | case3 c rest h ih =>
    have hc : isPySpace c = false := by simpa using h
    rw [splitWs_cons_word rest hc]
    intro w hw
    rcases List.mem_cons.mp hw with rfl | hw2
    · refine ⟨by simp [List.takeWhile_cons, hc], fun d hd => ?_⟩
      have hp := List.mem_takeWhile_imp hd
      have hmem : d ∈ c :: rest := List.takeWhile_subset _ hd
      exact ⟨by simpa using hp, hmem⟩
    · rcases ih w hw2 with ⟨hne, hall⟩
      refine ⟨hne, fun d hd => ⟨(hall d hd).1, ?_⟩⟩
      exact List.dropWhile_subset _ (hall d hd).2

theorem splitWs_dropWhile_space (s : List Char) :
    splitWs (s.dropWhile isPySpace) = splitWs s := by
  induction s with
  | nil => rfl
  | cons c rest ih =>
    cases hc : isPySpace c with
    | true =>
      rw [List.dropWhile_cons]
      simp only [hc, if_true]
      rw [ih, splitWs_cons_space rest hc]
    | false =>
      rw [List.dropWhile_cons]
      simp [hc]

theorem splitWs_append_spaces {t : List Char} (s : List Char)
    (ht : ∀ c ∈ t, isPySpace c = true) : splitWs (s ++ t) = splitWs s := by
  induction s using splitWs.induct with
  | case1 =>
    simpa [splitWs_nil] using splitWs_all_space ht
  | case2 c rest h ih =>
    rw [List.cons_append, splitWs_cons_space _ h, splitWs_cons_space rest h]
    exact ih
  | case3 c rest h ih =>
    have hc : isPySpace c = false := by simpa using h
    rw [List.cons_append, splitWs_cons_word _ hc, splitWs_cons_word rest hc,
      ← List.cons_append]
    by_cases hall : ∀ d ∈ c :: rest, (fun d => !isPySpace d) d = true
    · rw [takeWhile_append_of_all t hall, dropWhile_append_of_all t hall]
      have htk : t.takeWhile (fun d => !isPySpace d) = [] :=
        takeWhile_eq_nil_of_all_neg (fun d hd => by simp [ht d hd])
      have hdr : t.dropWhile (fun d => !isPySpace d) = t :=
        dropWhile_eq_self_of_all_neg (fun d hd => by simp [ht d hd])
      have hdr2 : (c :: rest).dropWhile (fun d => !isPySpace d) = [] := by
        have := dropWhile_append_of_all ([] : List Char) hall
        simpa using this
      have htk2 : (c :: rest).takeWhile (fun d => !isPySpace d) = c :: rest := by
        have h0 := takeWhile_append_of_all ([] : List Char) hall
        simpa using h0
      rw [htk, hdr, hdr2, List.append_nil, splitWs_nil, splitWs_all_space ht, htk2]
    · rw [takeWhile_append_of_not_all t hall, dropWhile_append_of_not_all t hall]
      rw [ih]

theorem splitWs_strip (s : List Char) : splitWs (pyStrip s) = splitWs s := by
  rw [pyStrip]
  have hdecomp : s.dropWhile isPySpace =
      ((s.dropWhile isPySpace).reverse.dropWhile isPySpace).reverse ++
        ((s.dropWhile isPySpace).reverse.takeWhile isPySpace).reverse := by
    have h1 : (s.dropWhile isPySpace).reverse =
        (s.dropWhile isPySpace).reverse.takeWhile isPySpace ++
          (s.dropWhile isPySpace).reverse.dropWhile isPySpace :=
      (List.takeWhile_append_dropWhile isPySpace _).symm
    conv_lhs => rw [← List.reverse_reverse (s.dropWhile isPySpace), h1, List.reverse_append]
  have hsp : ∀ c ∈ ((s.dropWhile isPySpace).reverse.takeWhile isPySpace).reverse,
      isPySpace c = true := by
    intro c hc
    exact List.mem_takeWhile_imp (List.mem_reverse.mp hc)
  calc splitWs (((s.dropWhile isPySpace).reverse.dropWhile isPySpace).reverse)
      = splitWs (((s.dropWhile isPySpace).reverse.dropWhile isPySpace).reverse ++
          ((s.dropWhile isPySpace).reverse.takeWhile isPySpace).reverse) :=
        (splitWs_append_spaces _ hsp).symm
    _ = splitWs (s.dropWhile isPySpace) := by rw [← hdecomp]
    _ = splitWs s := splitWs_dropWhile_space s

/-! ### joinSp lemmas -/

theorem mem_joinSp {c : Char} : ∀ {ts : List (List Char)},
    c ∈ joinSp ts → (∃ t ∈ ts, c ∈ t) ∨ c = ' ' := by
  intro ts
  induction ts with
  | nil => intro h; simp [joinSp] at h
  | cons w ws ih =>
    cases ws with
    | nil =>
      intro h
      have hj : joinSp [w] = w := rfl
      rw [hj] at h
      exact Or.inl ⟨w, by simp, h⟩
    | cons w2 ws2 =>
      intro h
      have hj : joinSp (w :: w2 :: ws2) = w ++ ' ' :: joinSp (w2 :: ws2) := rfl
      rw [hj] at h
      rcases List.mem_append.mp h with h1 | h1
      · exact Or.inl ⟨w, by simp, h1⟩
      · rcases List.mem_cons.mp h1 with rfl | h2
        · exact Or.inr rfl
        · rcases ih h2 with ⟨t, ht, hc⟩ | hsp
          · exact Or.inl ⟨t, by simp [ht], hc⟩
          · exact Or.inr hsp

theorem splitWs_join : ∀ {ts : List (List Char)},
    (∀ t ∈ ts, t ≠ [] ∧ ∀ c ∈ t, isPySpace c = false) → splitWs (joinSp ts) = ts := by
  intro ts
  induction ts with
  | nil => intro _; exact splitWs_nil
  | cons w ws ih =>
    intro hts
    rcases hts w (by simp) with ⟨hne, hall⟩
    have hallb : ∀ d ∈ w, (fun d => !isPySpace d) d = true := by
      intro d hd; simp [hall d hd]
    cases ws with
    | nil =>
      have hj : joinSp [w] = w := rfl
      rw [hj]
      cases w with
      | nil => exact absurd rfl hne
      | cons c tl =>
        have hc : isPySpace c = false := hall c (by simp)
        rw [splitWs_cons_word tl hc]
        have htk : (c :: tl).takeWhile (fun d => !isPySpace d) = c :: tl := by
          have h0 := takeWhile_append_of_all ([] : List Char) hallb
          simpa using h0
        have hdr : (c :: tl).dropWhile (fun d => !isPySpace d) = [] := by
          have h0 := dropWhile_append_of_all ([] : List Char) hallb
          simpa using h0
        rw [htk, hdr, splitWs_nil]
    | cons w2 ws2 =>
      have hj : joinSp (w :: w2 :: ws2) = w ++ ' ' :: joinSp (w2 :: ws2) := rfl
      rw [hj]
      cases w with
      | nil => exact absurd rfl hne
      | cons c tl =>
        have hc : isPySpace c = false := hall c (by simp)
        rw [List.cons_append, splitWs_cons_word _ hc, ← List.cons_append]
        have htk : ((c :: tl) ++ ' ' :: joinSp (w2 :: ws2)).takeWhile (fun d => !isPySpace d) =
            c :: tl := by
          rw [takeWhile_append_of_all _ hallb]
          simp [List.takeWhile_cons, isPySpace]
        have hdr : ((c :: tl) ++ ' ' :: joinSp (w2 :: ws2)).dropWhile (fun d => !isPySpace d) =
            ' ' :: joinSp (w2 :: ws2) := by
          rw [dropWhile_append_of_all _ hallb]
          simp [List.dropWhile_cons, isPySpace]
        rw [htk, hdr, splitWs_cons_space _ (by simp [isPySpace])]
        rw [ih (fun t ht => hts t (by simp [ht]))]

/-! ### Identity lemmas for already-normalized text -/

theorem replaceStr_of_head_not_mem {o : Char} (tl nw : List Char) :
    ∀ {s : List Char}, o ∉ s → replaceStr (o :: tl) nw s = s := by
  intro s
  induction s with
  | nil => intro _; simp [replaceStr]
  | cons c rest ih =>
    intro h
    have hoc : o ≠ c := fun he => h (he ▸ List.mem_cons_self c rest)
    have hcond : ¬((o :: tl).isPrefixOf (c :: rest) = true ∧ (o :: tl) ≠ []) := by
      rintro ⟨hp, -⟩
      simp only [List.isPrefixOf, Bool.and_eq_true, beq_iff_eq] at hp
      exact hoc hp.1
    rw [replaceStr, dif_neg hcond, ih (fun hm => h (List.mem_cons_of_mem c hm))]

theorem removeBrackets_of_not_mem : ∀ {s : List Char}, '[' ∉ s → removeBrackets s = s := by
  intro s
  induction s with
  | nil => intro _; simp [removeBrackets]
  | cons c rest ih =>
    intro h
    have hc : ¬ c = '[' := fun he => h (he ▸ List.mem_cons_self c rest)
    rw [removeBrackets]
    simp only [if_neg hc]
    rw [ih (fun hm => h (List.mem_cons_of_mem c hm))]

theorem mem_pyStrip {c : Char} {s : List Char} (h : c ∈ pyStrip s) : c ∈ s := by
  rw [pyStrip] at h
  have h1 := List.mem_reverse.mp h
  have h2 := List.dropWhile_subset isPySpace h1
  have h3 := List.mem_reverse.mp h2
  exact List.dropWhile_subset isPySpace h3

theorem normalizeText_tokens (x : List Char) :
    ∀ w ∈ normalizeText x,
      w ≠ [] ∧ ∀ c ∈ w, isPySpace c = false ∧ isPunct c = false ∧ toLowerA c = c := by
  intro w hw
  rw [normalizeText] at hw
  rcases splitWs_sound _ w hw with ⟨hne, hall⟩
  refine ⟨hne, fun c hc => ?_⟩
  rcases hall c hc with ⟨hsp, hmem⟩
  rw [stripPunct] at hmem
  have hmf := List.mem_filter.mp hmem
  have hpunct : isPunct c = false := by simpa using hmf.2
  have hml : c ∈ lowerStr (Anki.clean_field_text x) := hmf.1
  rw [lowerStr] at hml
  rcases List.mem_map.mp hml with ⟨c0, -, rfl⟩
  exact ⟨hsp, hpunct, toLowerA_idem c0⟩

theorem joinSp_chars_clean (x : List Char) :
    ∀ c ∈ joinSp (normalizeText x), isPunct c = false ∧ toLowerA c = c := by
  intro c hc
  rcases mem_joinSp hc with ⟨t, ht, hct⟩ | rfl
  · rcases normalizeText_tokens x t ht with ⟨-, hall⟩
    exact ⟨(hall c hct).2.1, (hall c hct).2.2⟩
  · exact ⟨by decide, by decide⟩

/-- Claim C7: the normalizer is idempotent on already-normalized input:
re-normalizing the space-joined token list of `normalizeText x` returns
the very same token list. -/
theorem claim_C7_normalizer_idempotent (x : List Char) :
    normalizeText (normalizeJoin x) = normalizeText x := by
  have hy := joinSp_chars_clean x
  have hlt : '<' ∉ joinSp (normalizeText x) := by
    intro hm
    exact absurd (hy _ hm).1 (by decide)
  have hlb : '[' ∉ joinSp (normalizeText x) := by
    intro hm
    exact absurd (hy _ hm).1 (by decide)
  rw [normalizeJoin, normalizeText, Anki.clean_field_text]
  rw [Anki.brTag, Anki.divTag, Anki.divCloseTag]
  rw [replaceStr_of_head_not_mem _ _ hlt, replaceStr_of_head_not_mem _ _ hlt,
    replaceStr_of_head_not_mem _ _ hlt]
  have hlb2 : '[' ∉ pyStrip (joinSp (normalizeText x)) := fun hm => hlb (mem_pyStrip hm)
  rw [removeBrackets_of_not_mem hlb2]
  have hlow : lowerStr (pyStrip (joinSp (normalizeText x))) =
      pyStrip (joinSp (normalizeText x)) := by
    rw [lowerStr]
    rw [List.map_congr_left (fun c hc => (hy c (mem_pyStrip hc)).2)]
    exact List.map_id _
  rw [hlow]
  have hsp : stripPunct (pyStrip (joinSp (normalizeText x))) =
      pyStrip (joinSp (normalizeText x)) := by
    rw [stripPunct]
    refine List.filter_eq_self.mpr (fun c hc => ?_)
    simp [(hy c (mem_pyStrip hc)).1]
  rw [hsp, splitWs_strip]
  exact splitWs_join (fun t ht => by
    rcases normalizeText_tokens x t ht with ⟨hne, hall⟩
    exact ⟨hne, fun c hc => (hall c hc).1⟩)

/-! ### sortedDedup lemmas -/

theorem mem_sortedDedup {w : List Char} {l : List (List Char)} :
    w ∈ sortedDedup l ↔ w ∈ l := by
  rw [sortedDedup]
  rw [List.mem_insertionSort]
  exact List.mem_dedup

theorem sortedDedup_nodup (l : List (List Char)) : (sortedDedup l).Nodup := by
  rw [sortedDedup]
  exact (List.perm_insertionSort _ _).symm.nodup (List.nodup_dedup l)

theorem sortedDedup_sorted (l : List (List Char)) :
    (sortedDedup l).Pairwise (fun a b => lexLe a b = true) := by
  haveI : IsTotal (List Char) (fun a b => lexLe a b = true) := ⟨lexLe_total⟩
  haveI : IsTrans (List Char) (fun a b => lexLe a b = true) :=
    ⟨fun _ _ _ h1 h2 => lexLe_trans h1 h2⟩
  exact List.sorted_insertionSort _ _

theorem sortedDedup_strict (l : List (List Char)) :
    (sortedDedup l).Pairwise (fun a b => lexLe a b = true ∧ a ≠ b) :=
  (sortedDedup_sorted l).and (sortedDedup_nodup l)

/-! ### compare / diff lemmas -/

theorem mem_compareLines {known lines : List (List Char)} {w : List Char} :
    w ∈ Anki.compareLines known lines ↔
      (∃ l ∈ lines, pyStrip l = w) ∧ w ≠ [] ∧ lowerStr w ∉ known := by
  rw [Anki.compareLines, List.mem_filterMap]
  constructor
  · rintro ⟨line, hline, hf⟩
    simp only at hf
    by_cases h1 : pyStrip line = []
    · rw [if_pos h1] at hf
      exact absurd hf (by simp)
    · rw [if_neg h1] at hf
      by_cases h2 : lowerStr (pyStrip line) ∈ known
      · rw [if_pos h2] at hf
        exact absurd hf (by simp)
      · rw [if_neg h2] at hf
        have hv : pyStrip line = w := by simpa using hf
        exact ⟨⟨line, hline, hv⟩, hv ▸ h1, hv ▸ h2⟩
  · rintro ⟨⟨line, hline, rfl⟩, hne, hnot⟩
    refine ⟨line, hline, ?_⟩
    simp only
    rw [if_neg hne, if_neg hnot]

/-- Claim C1 (amended): for every known set and reference line list, the
diff output contains a string `w` exactly when `w` is the whitespace-trim
of some reference line, is non-empty, and its lowercased form is not in
the known set; the output is deduplicated by exact (case-sensitive)
string equality and strictly sorted in ascending lexicographic order, so
each distinct qualifying trimmed line appears exactly once. -/
theorem claim_C1_diff_characterization (known lines : List (List Char)) :
    (∀ w, w ∈ Anki.diffOutput known lines ↔
        ((∃ l ∈ lines, pyStrip l = w) ∧ w ≠ [] ∧ lowerStr w ∉ known))
    ∧ (Anki.diffOutput known lines).Nodup
    ∧ (Anki.diffOutput known lines).Pairwise (fun a b => lexLe a b = true ∧ a ≠ b) := by
  refine ⟨fun w => ?_, sortedDedup_nodup _, sortedDedup_strict _⟩
  rw [Anki.diffOutput, Anki.output_words, mem_sortedDedup, mem_compareLines]

/-- Claim C1 counterexample: with an empty known set and the reference
lines `Banana` and `banana`, the diff output keeps both case variants, so
it is not deduplicated case-insensitively and the word "banana" does not
appear exactly once. -/
theorem claim_C1_counterexample :
    Anki.diffOutput [] ["Banana".data, "banana".data] = ["Banana".data, "banana".data]
    ∧ ¬ ((Anki.diffOutput [] ["Banana".data, "banana".data]).map lowerStr).Nodup := by
  constructor
  · decide
  · decide

/-- Claim C2 counterexample: on the documented example input, `"tree"`
(length 4, not greater than 4) is rejected by the filter, contradicting
the claimed output set containing `"tree"`. -/
theorem claim_C2_counterexample :
    "tree".data ∉
      Extractor.clean_word_list ["cat".data, "house".data, "dog2".data, "tree".data] := by
  decide

/-- Claim C2 (amended): applying the word filter to
`cat, house, dog2, tree` returns exactly `house`: `cat` (length 3) and
`tree` (length 4) fail the strict `length > 4` test and `dog2` contains a
digit. -/
theorem claim_C2_filter_example :
    Extractor.clean_word_list ["cat".data, "house".data, "dog2".data, "tree".data] =
      ["house".data] := by
  decide

/-- Claim C3: a word is retained by the (spec-parameterised) filter iff
its length is strictly greater than `min_length` and (digit rejection is
off or it contains no decimal digit); the source's `clean_word_list` is
exactly this filter at the documented defaults `min_length = 4`,
`reject_if_contains_digit = true`. -/
theorem claim_C3_filter_contract :
    (∀ min_length reject ws w, w ∈ filterSpec min_length reject ws ↔
        w ∈ ws ∧ min_length < w.length ∧ (reject = false ∨ w.any isDigitA = false))
    ∧ Extractor.clean_word_list = filterSpec 4 true := by
  constructor
  · intro ml rej ws w
    rw [filterSpec, List.mem_filter]
    cases rej <;> simp
  · funext ws
    rw [Extractor.clean_word_list, filterSpec]
    apply List.filter_congr
    intro w hw
    simp

/-- Claim C10: for every input, the unique-word extraction returns a
strictly sorted (ascending lexicographic), duplicate-free list whose
elements are non-empty and contain no `string.punctuation` character and
no uppercase ASCII letter. -/
theorem claim_C10_extract_invariants (text : List Char) :
    (Extractor.extract_unique_words_from_text text).Pairwise
        (fun a b => lexLe a b = true ∧ a ≠ b)
    ∧ (Extractor.extract_unique_words_from_text text).Nodup
    ∧ ∀ w ∈ Extractor.extract_unique_words_from_text text,
        w ≠ [] ∧ ∀ c ∈ w, isPunct c = false ∧ (65 ≤ c.toNat && c.toNat ≤ 90) = false := by
  rw [Extractor.extract_unique_words_from_text]
  by_cases ht : text = []
  · simp [ht]
  · rw [if_neg ht]
    refine ⟨sortedDedup_strict _, sortedDedup_nodup _, fun w hw => ?_⟩
    have hw2 := mem_sortedDedup.mp hw
    rcases splitWs_sound _ w hw2 with ⟨hne, hall⟩
    refine ⟨hne, fun c hc => ?_⟩
    rcases hall c hc with ⟨-, hmem⟩
    rw [stripPunct] at hmem
    have hmf := List.mem_filter.mp hmem
    have hp : isPunct c = false := by simpa using hmf.2
    have hml := hmf.1
    rw [lowerStr] at hml
    rcases List.mem_map.mp hml with ⟨c0, -, rfl⟩
    exact ⟨hp, toLowerA_not_upper c0⟩

/-- Claim C4: normalizing the raw field `Hello<br>World! [sound:x.mp3]`
(markup substitution, bracket-group removal, lowercasing, punctuation
deletion, whitespace split, in the source's order) yields exactly the
token sequence `hello`, `world`. -/
theorem claim_C4_normalize_example :
    normalizeText "Hello<br>World! [sound:x.mp3]".data = ["hello".data, "world".data] := by
  simp +decide [normalizeText, Anki.clean_field_text, replaceStr, removeBrackets, findClose,
    pyStrip, Anki.brTag, Anki.divTag, Anki.divCloseTag, splitWs, stripPunct, lowerStr]

/-- Claim C5 is violated by the code: on any VTT input that yields at
least one word (here the single caption text `hello`), the `__main__`
block of `extractor.py` reaches line 152, whose f-string names the
undefined variable `clea_unique_words`, and the resulting `NameError`
propagates past the entry point instead of being reported. -/
theorem claim_C5_uncaught_name_error :
    Extractor.extractor_main (some "hello".data) =
      Extractor.RunOutcome.raised ("NameError: name clea_unique_words is not defined".data) := by
  have h : Extractor.extract_unique_words_from_text "hello".data = ["hello".data] := by
    simp +decide [Extractor.extract_unique_words_from_text, splitWs, stripPunct, lowerStr,
      sortedDedup]
  rw [Extractor.extractor_main]
  rw [h]
  simp

/-- Claim C6: a missing reference file makes `compare` return `none`
(the `MissingReferenceFile` signal), which is distinguishable from every
successful result, while a present-but-empty reference file yields the
empty — not failed — diff `some []`; any readable file yields `some` of
a result list. -/
theorem claim_C6_missing_reference (known : List (List Char)) :
    Anki.compare known none = none
    ∧ Anki.compare known (some []) = some []
    ∧ (∀ lines, ∃ result, Anki.compare known (some lines) = some result)
    ∧ ∀ lines, Anki.compare known none ≠ Anki.compare known (some lines) := by
  refine ⟨rfl, rfl, fun lines => ⟨_, rfl⟩, fun lines => by simp [Anki.compare]⟩

/-- Claim C8: the vocabulary builder is order-independent — permuting the
raw front fields yields an identical vocabulary set. -/
theorem claim_C8_builder_order_independent (f1 f2 : List (List Char))
    (h : List.Perm f1 f2) : Anki.buildVocab f1 = Anki.buildVocab f2 := by
  rw [Anki.buildVocab, Anki.buildVocab]
  ext a
  simp only [List.mem_toFinset, List.mem_map, List.mem_flatMap]
  constructor
  · rintro ⟨w, ⟨t, ⟨f, hf, rfl⟩, hw⟩, rfl⟩
    exact ⟨w, ⟨Anki.clean_field_text f, ⟨f, h.mem_iff.mp hf, rfl⟩, hw⟩, rfl⟩
  · rintro ⟨w, ⟨t, ⟨f, hf, rfl⟩, hw⟩, rfl⟩
    exact ⟨w, ⟨Anki.clean_field_text f, ⟨f, h.mem_iff.mpr hf, rfl⟩, hw⟩, rfl⟩

/-- Witness for claim C8 at a concrete pair of permuted field lists. -/
theorem claim_C8_witness :
    Anki.buildVocab ["b a".data, "c".data] = Anki.buildVocab ["c".data, "b a".data] :=
  claim_C8_builder_order_independent _ _ (List.Perm.swap _ _ _)

theorem splitLines_flatMap (ws : List (List Char)) (h : ∀ w ∈ ws, '\n' ∉ w) :
    splitLines (ws.flatMap (fun w => w ++ ['\n'])) = ws := by
  induction ws with
  | nil => simp [splitLines]
  | cons w rest ih =>
    rw [List.flatMap_cons, List.append_assoc]
    have hw : '\n' ∉ w := h w (by simp)
    have hwb : ∀ c ∈ w, (fun d => !(d == '\n')) c = true := by
      intro c hc
      simp only [Bool.not_eq_true', beq_eq_false_iff_ne]
      exact fun he => hw (he ▸ hc)
    have hrest := ih (fun t ht => h t (by simp [ht]))
    cases w with
    | nil =>
      rw [List.nil_append, List.singleton_append, splitLines]
      have ht1 : ('\n' :: rest.flatMap (fun w => w ++ ['\n'])).takeWhile
          (fun d => !(d == '\n')) = [] := by
        simp [List.takeWhile_cons]
      have ht2 : ('\n' :: rest.flatMap (fun w => w ++ ['\n'])).dropWhile
          (fun d => !(d == '\n')) = '\n' :: rest.flatMap (fun w => w ++ ['\n']) := by
        simp [List.dropWhile_cons]
      rw [ht1, ht2, List.drop_one, List.tail_cons, hrest]
    | cons c tl =>
      rw [List.singleton_append, List.cons_append, splitLines, ← List.cons_append]
      have ht1 : ((c :: tl) ++ '\n' :: rest.flatMap (fun w => w ++ ['\n'])).takeWhile
          (fun d => !(d == '\n')) = c :: tl := by
        rw [takeWhile_append_of_all _ hwb]
        simp [List.takeWhile_cons]
      have ht2 : ((c :: tl) ++ '\n' :: rest.flatMap (fun w => w ++ ['\n'])).dropWhile
          (fun d => !(d == '\n')) = '\n' :: rest.flatMap (fun w => w ++ ['\n']) := by
        rw [dropWhile_append_of_all _ hwb]
        simp [List.dropWhile_cons]
      rw [ht1, ht2, List.drop_one, List.tail_cons, hrest]

/-- Claim C9: one run of the output writer reports the success of the
underlying write; on success the destination holds exactly one word per
line, newline-terminated, in the given order (splitting the written
stream into lines recovers the word sequence, given that the words
themselves contain no newline — every word produced by the pipeline is
whitespace-free); on failure it reports failure (`False` result, the
`IOFailure` report); and the previous destination content never
influences the result (the destination is created or truncated). -/
theorem claim_C9_writer (word_list : List (List Char)) (old_content : List Char) (io_ok : Bool)
    (h : ∀ w ∈ word_list, '\n' ∉ w) :
    (Extractor.save_words_run word_list old_content io_ok).1 = io_ok
    ∧ (io_ok = true → (Extractor.save_words_run word_list old_content io_ok).2 =
        some (Extractor.save_words_to_file word_list)
        ∧ splitLines (Extractor.save_words_to_file word_list) = word_list)
    ∧ (io_ok = false → (Extractor.save_words_run word_list old_content io_ok).2 = none)
    ∧ (∀ old2, Extractor.save_words_run word_list old2 io_ok =
        Extractor.save_words_run word_list old_content io_ok) := by
  refine ⟨?_, fun hio => ⟨?_, ?_⟩, fun hio => ?_, fun old2 => rfl⟩
  · cases io_ok <;> simp [Extractor.save_words_run]
  · simp [Extractor.save_words_run, hio]
  · rw [Extractor.save_words_to_file]
    exact splitLines_flatMap _ h
  · simp [Extractor.save_words_run, hio]

/-- Witness for claim C9 at a concrete word list. -/
theorem claim_C9_witness :
    (∀ w ∈ [['h', 'i'], ['y', 'o']], '\n' ∉ w)
    ∧ splitLines (Extractor.save_words_to_file [['h', 'i'], ['y', 'o']]) =
        [['h', 'i'], ['y', 'o']] :=
  ⟨by decide, ((claim_C9_writer [['h', 'i'], ['y', 'o']] [] true (by decide)).2.1 rfl).2⟩
